import Mathlib

/-! Verification of the wsroom chat server core (package `chat`,
files `chat.go` and the user/connection file).

The registry (`Chat`), its operations (`Register`, `Rename`, `Remove`,
the internal `remove`, `randName`), the per-connection receive step
(`User.Receive`), the broadcast writer loop (`Chat.writer`), and the
per-connection lock discipline (`User.readRequest` / `User.write` /
`User.writeRaw`) are shallowly embedded below.  Go maps are embedded as
association lists with Go map semantics (lookup, overwrite on insert,
delete); the heap of `*User` objects is embedded as a map from user id
to the current value of the mutable `name` field.
-/

namespace WsRoom

/-! Section: Association lists: the embedding of Go maps -/

/-- Lookup in a Go map, embedded as an association list. -/
def alookup {κ α : Type} [DecidableEq κ] (k : κ) : List (κ × α) → Option α
  | [] => none
  | e :: rest => if e.1 = k then some e.2 else alookup k rest

/-- Deletion `delete(m, k)`: remove every entry with key `k`. -/
def aerase {κ α : Type} [DecidableEq κ] (k : κ) : List (κ × α) → List (κ × α)
  | [] => []
  | e :: rest => if e.1 = k then aerase k rest else e :: aerase k rest

/-- Assignment `m[k] = v`: Go map insert or overwrite. -/
def ainsert {κ α : Type} [DecidableEq κ] (k : κ) (v : α) (m : List (κ × α)) :
    List (κ × α) :=
  (k, v) :: aerase k m

theorem alookup_aerase_self {κ α : Type} [DecidableEq κ] (k : κ)
    (m : List (κ × α)) : alookup k (aerase k m) = none := by
  induction m with
  | nil => rfl
  | cons e rest ih =>
    by_cases h : e.1 = k
    · simp [aerase, h, ih]
    · simp [aerase, alookup, h, ih]

theorem alookup_aerase_ne {κ α : Type} [DecidableEq κ] {k k' : κ}
    (m : List (κ × α)) (h : k ≠ k') : alookup k (aerase k' m) = alookup k m := by
  have hne : ∀ x : κ, x = k' → x ≠ k := fun x hx hc => h (hc ▸ hx)
  induction m with
  | nil => rfl
  | cons e rest ih =>
    by_cases he : e.1 = k'
    · simp only [aerase, if_pos he, ih, alookup, if_neg (hne e.1 he)]
    · by_cases hk : e.1 = k
      · simp only [aerase, if_neg he, alookup, if_pos hk]
      · simp only [aerase, if_neg he, alookup, if_neg hk, ih]

theorem alookup_ainsert_self {κ α : Type} [DecidableEq κ] (k : κ) (v : α)
    (m : List (κ × α)) : alookup k (ainsert k v m) = some v := by
  simp [ainsert, alookup]

theorem alookup_ainsert_ne {κ α : Type} [DecidableEq κ] {k k' : κ} (v : α)
    (m : List (κ × α)) (h : k ≠ k') : alookup k (ainsert k' v m) = alookup k m := by
  have : k' ≠ k := fun hc => h hc.symm
  simp [ainsert, alookup, this, alookup_aerase_ne m h]

theorem mem_aerase {κ α : Type} [DecidableEq κ] {k : κ} {e : κ × α}
    {m : List (κ × α)} (h : e ∈ aerase k m) : e ∈ m ∧ e.1 ≠ k := by
  induction m with
  | nil => cases h
  | cons f rest ih =>
    by_cases hf : f.1 = k
    · simp only [aerase, if_pos hf] at h
      exact ⟨List.mem_cons_of_mem _ (ih h).1, (ih h).2⟩
    · simp only [aerase, if_neg hf] at h
      rcases List.mem_cons.1 h with h1 | h2
      · subst h1; exact ⟨List.mem_cons_self _ _, hf⟩
      · exact ⟨List.mem_cons_of_mem _ (ih h2).1, (ih h2).2⟩

theorem alookup_eq_some_mem {κ α : Type} [DecidableEq κ] {k : κ} {v : α}
    {m : List (κ × α)} (h : alookup k m = some v) : (k, v) ∈ m := by
  induction m with
  | nil => cases h
  | cons e rest ih =>
    by_cases he : e.1 = k
    · simp only [alookup, if_pos he] at h
      have : e = (k, v) := Prod.ext he (Option.some_injective _ h)
      exact this ▸ List.mem_cons_self _ _
    · simp only [alookup, if_neg he] at h
      exact List.mem_cons_of_mem _ (ih h)

/-! Section: The registry: `Chat` state and its operations

`Chat` holds `seq` (next id), `us` (the slice of active users, in
insertion order, hence ordered by strictly increasing id), and `ns`
(the name map).  Users are `*User` heap objects whose mutable `name`
field survives removal from the registry; the heap is embedded as the
map `uname` from user id to the current value of that field.  Users
are denoted by their id (a `Nat`), which Go never reuses. -/

structure ChatState where
  seq : Nat
  us : List Nat
  ns : List (String × Nat)
  uname : List (Nat × String)
  deriving DecidableEq

/-- The current value of the mutable `name` field of user `p`. -/
def userName (s : ChatState) (p : Nat) : String :=
  (alookup p s.uname).getD ""

/-- The empty registry produced by `NewChat`. -/
def initChat : ChatState :=
  { seq := 0, us := [], ns := [], uname := [] }

/-- Registration `Chat.Register` (registry part): under the lock, the new user gets
`id = c.seq` and a name produced by `randName` (always fresh, see
`randNameAux` below); it is appended to `c.us` and inserted into
`c.ns`, and `c.seq` is incremented.  Returns the new user id.  The
`hello` and `greet` notices sent afterwards do not touch the registry
state and are not part of this embedding. -/
def ChatState.Register (s : ChatState) (name : String) : Nat × ChatState :=
  (s.seq,
    { seq := s.seq + 1
      us := s.us ++ [s.seq]
      ns := ainsert name s.seq s.ns
      uname := ainsert s.seq name s.uname })

/-- Renaming `Chat.Rename`: under the lock, if `name` is absent from `c.ns` the
rename succeeds: `prev` becomes the old `user.name`, the user object
is renamed, the old map entry is deleted and `name` is mapped to the
user.  Otherwise it fails with `prev = ""` and no mutation. -/
def ChatState.Rename (s : ChatState) (p : Nat) (name : String) :
    (String × Bool) × ChatState :=
  match alookup name s.ns with
  | some _ => (("", false), s)
  | none =>
    ((userName s p, true),
      { s with
        uname := ainsert p name s.uname
        ns := ainsert name p (aerase (userName s p) s.ns) })

/-- Outcome of the internal `Chat.remove`: `false`, `true` with the new
state, or the `panic("chat: inconsistent state")` branch. -/
inductive RemoveRes where
  | notFound
  | removed (s : ChatState)
  | panicked
  deriving DecidableEq

/-- First index of an element `≥ p`, i.e. the result of
`sort.Search(len(c.us), func(i) { c.us[i].id >= user.id })` on a slice
that is sorted by id (as `c.us` always is in the states considered
here; `sort.Search` returns the least index satisfying a monotone
predicate). -/
def lowerBound (p : Nat) : List Nat → Nat
  | [] => 0
  | x :: xs => if p ≤ x then 0 else lowerBound p xs + 1

/-- Removal `Chat.remove` (mutex held): if `c.ns` has no entry under
`user.name`, report `false`.  Otherwise delete that entry (whomever it
maps to), binary-search `c.us` for the first slot with id `≥ user.id`,
panic if there is none, and otherwise splice out that slot (whatever
user occupies it — the code does not compare ids). -/
def ChatState.remove (s : ChatState) (p : Nat) : RemoveRes :=
  match alookup (userName s p) s.ns with
  | none => .notFound
  | some _ =>
    let i := lowerBound p s.us
    if i < s.us.length then
      .removed { s with
        ns := aerase (userName s p) s.ns
        us := s.us.eraseIdx i }
    else .panicked

/-- Removal `Chat.Remove`: takes the lock, runs `remove`, and broadcasts the
`goodbye` notice (with the user objects current name and the current
timestamp `t`) only when `remove` reported `true`.  `none` is the
propagated panic. -/
def ChatState.Remove (s : ChatState) (p : Nat) (t : Int) :
    Option ((Bool × Option (String × Int)) × ChatState) :=
  match s.remove p with
  | .notFound => some ((false, none), s)
  | .removed s' => some ((true, some (userName s' p, t)), s')
  | .panicked => none

/-! Section: Registry invariant and reachable states -/

/-- The registry consistency invariant: the name map and the member
slice describe the same membership (every map entry points at a member
carrying that name, and every member is mapped under its current
name), the slice is sorted by strictly increasing id, and every member
id is below the id counter. -/
def Inv (s : ChatState) : Prop :=
  (∀ e ∈ s.ns, e.2 ∈ s.us ∧ userName s e.2 = e.1) ∧
  (∀ p ∈ s.us, alookup (userName s p) s.ns = some p) ∧
  List.Pairwise (· < ·) s.us ∧
  (∀ p ∈ s.us, p < s.seq)

instance (s : ChatState) : Decidable (Inv s) := by
  unfold Inv; infer_instance

/-- States reachable from the empty registry when `Rename` and the
removal that actually removes are applied to current members only
(`Register` always receives a fresh name, which is what `randName`
guarantees). -/
inductive Reach : ChatState → Prop where
  | init : Reach initChat
  | register (s : ChatState) (n : String) :
      Reach s → alookup n s.ns = none → Reach (s.Register n).2
  | rename (s : ChatState) (p : Nat) (n : String) :
      Reach s → p ∈ s.us → Reach (s.Rename p n).2
  | removeStep (s : ChatState) (p : Nat) (s' : ChatState) :
      Reach s → p ∈ s.us → s.remove p = .removed s' → Reach s'

theorem userName_register_self {s : ChatState} {n : String} :
    userName (s.Register n).2 s.seq = n := by
  simp [ChatState.Register, userName, alookup_ainsert_self]

theorem userName_register_ne {s : ChatState} {n : String} {p : Nat}
    (h : p ≠ s.seq) : userName (s.Register n).2 p = userName s p := by
  simp [ChatState.Register, userName, alookup_ainsert_ne _ _ h]

theorem inv_init : Inv initChat := by decide

theorem inv_register {s : ChatState} {n : String} (hInv : Inv s)
    (hn : alookup n s.ns = none) : Inv (s.Register n).2 := by
  obtain ⟨h1, h2, h3, h4⟩ := hInv
  refine ⟨?_, ?_, ?_, ?_⟩
  · intro e he
    simp only [ChatState.Register, ainsert, List.mem_cons] at he
    rcases he with he | he
    · subst he
      exact ⟨List.mem_append_right _ (List.mem_singleton.2 rfl),
        userName_register_self⟩
    · obtain ⟨hmem, _⟩ := mem_aerase he
      obtain ⟨hu, hname⟩ := h1 e hmem
      have hne : e.2 ≠ s.seq := Nat.ne_of_lt (h4 e.2 hu)
      refine ⟨List.mem_append_left _ hu, ?_⟩
      rw [show (s.Register n).2 = (s.Register n).2 from rfl,
        userName_register_ne hne]
      exact hname
  · intro p hp
    simp only [ChatState.Register, List.mem_append, List.mem_singleton] at hp
    rcases hp with hp | hp
    · have hne : p ≠ s.seq := Nat.ne_of_lt (h4 p hp)
      have hun : userName (s.Register n).2 p = userName s p :=
        userName_register_ne hne
      have hnen : userName s p ≠ n := by
        intro hc
        rw [← hc] at hn
        rw [h2 p hp] at hn
        cases hn
      show alookup (userName (s.Register n).2 p) (ainsert n s.seq s.ns) = some p
      rw [hun, alookup_ainsert_ne _ _ hnen]
      exact h2 p hp
    · subst hp
      show alookup (userName (s.Register n).2 s.seq) (ainsert n s.seq s.ns) =
        some s.seq
      rw [userName_register_self, alookup_ainsert_self]
  · show List.Pairwise (· < ·) (s.us ++ [s.seq])
    rw [List.pairwise_append]
    refine ⟨h3, List.pairwise_singleton _ _, ?_⟩
    intro a ha b hb
    rw [List.mem_singleton] at hb
    subst hb
    exact h4 a ha
  · intro p hp
    simp only [ChatState.Register, List.mem_append, List.mem_singleton] at hp
    rcases hp with hp | hp
    · exact Nat.lt_succ_of_lt (h4 p hp)
    · subst hp; exact Nat.lt_succ_self _

theorem rename_fail {s : ChatState} {p : Nat} {n : String} {v : Nat}
    (h : alookup n s.ns = some v) : s.Rename p n = (("", false), s) := by
  simp [ChatState.Rename, h]

theorem rename_success {s : ChatState} {p : Nat} {n : String}
    (h : alookup n s.ns = none) :
    s.Rename p n = ((userName s p, true),
      { s with
        uname := ainsert p n s.uname
        ns := ainsert n p (aerase (userName s p) s.ns) }) := by
  simp [ChatState.Rename, h]

theorem inv_rename {s : ChatState} {p : Nat} {n : String} (hInv : Inv s)
    (hp : p ∈ s.us) : Inv (s.Rename p n).2 := by
  obtain ⟨h1, h2, h3, h4⟩ := hInv
  cases h : alookup n s.ns with
  | some v => rw [rename_fail h]; exact ⟨h1, h2, h3, h4⟩
  | none =>
    rw [rename_success h]
    set s' : ChatState :=
      { s with
        uname := ainsert p n s.uname
        ns := ainsert n p (aerase (userName s p) s.ns) } with hs'
    have hus : s'.us = s.us := rfl
    have hself : userName s' p = n := by
      simp [hs', userName, alookup_ainsert_self]
    have hother : ∀ q : Nat, q ≠ p → userName s' q = userName s q := by
      intro q hq
      simp [hs', userName, alookup_ainsert_ne _ _ hq]
    have hpn : userName s p ≠ n := by
      intro hc
      have := h2 p hp
      rw [hc, h] at this
      cases this
    refine ⟨?_, ?_, h3, h4⟩
    · intro e he
      simp only [hs', ainsert, List.mem_cons] at he
      rcases he with he | he
      · subst he
        exact ⟨hp, hself⟩
      · obtain ⟨he2, hk⟩ := mem_aerase he
        obtain ⟨hmem, hnm⟩ := mem_aerase he2
        obtain ⟨hu, hname⟩ := h1 e hmem
        have hep : e.2 ≠ p := by
          intro hc
          rw [hc] at hname
          exact hnm (hname ▸ rfl)
        rw [hus]
        exact ⟨hu, (hother e.2 hep).trans hname⟩
    · intro q hq
      rw [hus] at hq
      by_cases hqp : q = p
      · subst hqp
        rw [hself]
        show alookup n s'.ns = some q
        simp [hs', alookup_ainsert_self]
      · rw [hother q hqp]
        have hqn : userName s q ≠ n := by
          intro hc
          have := h2 q hq
          rw [hc, h] at this
          cases this
        have hqprev : userName s q ≠ userName s p := by
          intro hc
          have hq1 := h2 q hq
          have hp1 := h2 p hp
          rw [hc] at hq1
          rw [hq1] at hp1
          exact hqp (Option.some_injective _ hp1)
        show alookup (userName s q)
          (ainsert n p (aerase (userName s p) s.ns)) = some q
        rw [alookup_ainsert_ne _ _ hqn, alookup_aerase_ne _ hqprev]
        exact h2 q hq

theorem lowerBound_lt_length {p : Nat} {l : List Nat}
    (hs : List.Pairwise (· < ·) l) (hp : p ∈ l) : lowerBound p l < l.length := by
  induction l with
  | nil => cases hp
  | cons x xs ih =>
    by_cases hle : p ≤ x
    · simp [lowerBound, hle]
    · have hxs : p ∈ xs := by
        rcases List.mem_cons.1 hp with h | h
        · subst h; exact absurd (Nat.le_refl p) hle
        · exact h
      have := ih (List.Pairwise.of_cons hs) hxs
      simp only [lowerBound, if_neg hle, List.length_cons]
      omega

theorem mem_eraseIdx_lowerBound {p : Nat} {l : List Nat}
    (hs : List.Pairwise (· < ·) l) (hp : p ∈ l) (q : Nat) :
    q ∈ l.eraseIdx (lowerBound p l) ↔ q ∈ l ∧ q ≠ p := by
  induction l with
  | nil => cases hp
  | cons x xs ih =>
    rw [List.pairwise_cons] at hs
    obtain ⟨hlt, hsxs⟩ := hs
    by_cases hle : p ≤ x
    · have hpx : p = x := by
        rcases List.mem_cons.1 hp with h | h
        · exact h
        · exact absurd (hlt p h) (by omega)
      subst hpx
      simp only [lowerBound, if_pos hle, List.eraseIdx_cons_zero,
        List.mem_cons]
      constructor
      · intro hq
        refine ⟨Or.inr hq, ?_⟩
        intro hc; subst hc
        exact absurd (hlt q hq) (by omega)
      · rintro ⟨h | h, hqp⟩
        · exact absurd h hqp
        · exact h
    · have hpxs : p ∈ xs := by
        rcases List.mem_cons.1 hp with h | h
        · subst h; exact absurd (Nat.le_refl p) hle
        · exact h
      have hxp : x ≠ p := by
        intro hc; subst hc; exact hle (Nat.le_refl x)
      simp only [lowerBound, if_neg hle, List.eraseIdx_cons_succ,
        List.mem_cons, ih hsxs hpxs]
      constructor
      · rintro (h | ⟨hq, hqp⟩)
        · subst h
          exact ⟨Or.inl rfl, hxp⟩
        · exact ⟨Or.inr hq, hqp⟩
      · rintro ⟨h | hq, hqp⟩
        · exact Or.inl h
        · exact Or.inr ⟨hq, hqp⟩

theorem remove_removed_iff {s : ChatState} {p : Nat} {s' : ChatState} :
    s.remove p = .removed s' ↔
      (∃ v, alookup (userName s p) s.ns = some v) ∧
      lowerBound p s.us < s.us.length ∧
      s' = { s with
        ns := aerase (userName s p) s.ns
        us := s.us.eraseIdx (lowerBound p s.us) } := by
  unfold ChatState.remove
  cases hl : alookup (userName s p) s.ns with
  | none =>
    simp only []
    constructor
    · intro h; cases h
    · rintro ⟨⟨v, hv⟩, _, _⟩; cases hv
  | some v =>
    simp only []
    by_cases hi : lowerBound p s.us < s.us.length
    · simp only [if_pos hi]
      constructor
      · intro h
        cases h
        exact ⟨⟨v, rfl⟩, hi, rfl⟩
      · rintro ⟨_, _, hs'⟩
        rw [hs']
    · simp only [if_neg hi]
      constructor
      · intro h; cases h
      · rintro ⟨_, hc, _⟩; exact absurd hc hi

theorem inv_remove {s : ChatState} {p : Nat} {s' : ChatState} (hInv : Inv s)
    (hp : p ∈ s.us) (h : s.remove p = .removed s') : Inv s' := by
  obtain ⟨h1, h2, h3, h4⟩ := hInv
  obtain ⟨_, _, hs'⟩ := remove_removed_iff.1 h
  subst hs'
  have hun : ∀ q : Nat, userName { s with
      ns := aerase (userName s p) s.ns
      us := s.us.eraseIdx (lowerBound p s.us) } q = userName s q :=
    fun q => rfl
  refine ⟨?_, ?_, ?_, ?_⟩
  · intro e he
    obtain ⟨hmem, hk⟩ := mem_aerase he
    obtain ⟨hu, hname⟩ := h1 e hmem
    have hep : e.2 ≠ p := by
      intro hc
      rw [hc] at hname
      exact hk (hname ▸ rfl)
    refine ⟨(mem_eraseIdx_lowerBound h3 hp e.2).2 ⟨hu, hep⟩, ?_⟩
    rw [hun]; exact hname
  · intro q hq
    obtain ⟨hqu, hqp⟩ := (mem_eraseIdx_lowerBound h3 hp q).1 hq
    rw [hun]
    have hqprev : userName s q ≠ userName s p := by
      intro hc
      have hq1 := h2 q hqu
      have hp1 := h2 p hp
      rw [hc] at hq1
      rw [hq1] at hp1
      exact hqp (Option.some_injective _ hp1)
    show alookup (userName s q) (aerase (userName s p) s.ns) = some q
    rw [alookup_aerase_ne _ hqprev]
    exact h2 q hqu
  · exact List.Pairwise.sublist (List.eraseIdx_sublist _ _) h3
  · intro q hq
    exact h4 q ((mem_eraseIdx_lowerBound h3 hp q).1 hq).1

/-- Every state reachable by member-directed operations satisfies the
registry invariant. -/
theorem reach_inv {s : ChatState} (h : Reach s) : Inv s := by
  induction h with
  | init => exact inv_init
  | register s n _ hn ih => exact inv_register ih hn
  | rename s p n _ hp ih => exact inv_rename ih hp
  | removeStep s p s' _ hp hrem ih => exact inv_remove ih hp hrem

/-! Section: Claims C1 to C4 -/

/-- Claim C1 (amended): a second `Remove(p)` immediately following a
successful removal of `p` — equivalently, at any later point at which
no active participant holds the former display name of `p` — returns
false, broadcasts no goodbye notice, and leaves the whole state
unchanged.  (The unrestricted claim, with arbitrary operations in
between, fails: see the counterexample, where another participant has
taken over the former name of `p`.) -/
theorem claimC1_remove_second_call (s : ChatState) (p : Nat) (t : Int)
    (s₁ : ChatState) (h : s.remove p = .removed s₁) :
    s₁.Remove p t = some ((false, none), s₁) := by
  obtain ⟨_, _, hs₁⟩ := remove_removed_iff.1 h
  have hname : userName s₁ p = userName s p := by rw [hs₁]; rfl
  have hfree : alookup (userName s₁ p) s₁.ns = none := by
    rw [hname, hs₁]
    exact alookup_aerase_self _ _
  unfold ChatState.Remove ChatState.remove
  rw [hfree]

/-- Witness for C1: in the one-member registry, removing member `0` and
then removing it again returns false with no side effects. -/
theorem claimC1_witness :
    ((initChat.Register "a").2.remove 0 =
      .removed { seq := 1, us := [], ns := [], uname := [(0, "a")] }) ∧
    (({ seq := 1, us := [], ns := [], uname := [(0, "a")] } :
        ChatState).Remove 0 5 =
      some ((false, none),
        { seq := 1, us := [], ns := [], uname := [(0, "a")] })) :=
  ⟨by decide,
    claimC1_remove_second_call (initChat.Register "a").2 0 5 _ (by decide)⟩

/-- Counterexample for C1 as stated: register users `0` (name `a`) and
`1` (name `b`), remove `0`, let `1` rename to the freed name `a`; the
second `Remove(0)` then returns true (not false), broadcasts a goodbye
notice carrying the name of the still-active user `1`, and tears user
`1` out of both the name map and the membership slice. -/
theorem claimC1_counterexample :
    (((initChat.Register "a").2.Register "b").2.remove 0 =
      .removed { seq := 2, us := [1], ns := [("b", 1)], uname := [(1, "b"), (0, "a")] }) ∧
    (({ seq := 2, us := [1], ns := [("b", 1)], uname := [(1, "b"), (0, "a")] } : ChatState).Rename 1 "a" =
      (("b", true), { seq := 2, us := [1], ns := [("a", 1)], uname := [(1, "a"), (0, "a")] })) ∧
    (({ seq := 2, us := [1], ns := [("a", 1)], uname := [(1, "a"), (0, "a")] } : ChatState).Remove 0 7 =
      some ((true, some ("a", 7)),
        { seq := 2, us := [], ns := [], uname := [(1, "a"), (0, "a")] })) := by
  decide

/-- Claim C2 (amended): the `panic("chat: inconsistent state")` branch
of removal is unreachable in every invariant-satisfying state provided
the removed participant is a current member, or is a non-member whose
stored name is absent from the name map.  (Without that proviso the
panic is reachable: see the counterexample.) -/
theorem claimC2_no_panic (s : ChatState) (p : Nat) (hInv : Inv s)
    (hp : p ∈ s.us ∨ alookup (userName s p) s.ns = none) :
    s.remove p ≠ .panicked := by
  obtain ⟨_, _, h3, _⟩ := hInv
  cases hl : alookup (userName s p) s.ns with
  | none =>
    unfold ChatState.remove
    rw [hl]
    intro hc; cases hc
  | some v =>
    have hmem : p ∈ s.us := by
      rcases hp with h | h
      · exact h
      · rw [h] at hl; cases hl
    unfold ChatState.remove
    rw [hl]
    simp only [if_pos (lowerBound_lt_length h3 hmem)]
    intro hc; cases hc

/-- Witness for C2: removing the sole member of a one-member registry
does not panic. -/
theorem claimC2_witness :
    Inv (initChat.Register "a").2 ∧ 0 ∈ (initChat.Register "a").2.us ∧
    (initChat.Register "a").2.remove 0 ≠ .panicked :=
  ⟨by decide, by decide,
    claimC2_no_panic _ 0 (by decide) (Or.inl (by decide))⟩

/-- Counterexample for C2 as stated: register users `0` (name `a`) and
`1` (name `b`), remove `1`, let `0` rename to the freed name `b`; the
second `Remove(1)` finds name `b` in the map but no member with id
`≥ 1`, and reaches the panic branch. -/
theorem claimC2_counterexample :
    (((initChat.Register "a").2.Register "b").2.remove 1 =
      .removed { seq := 2, us := [0], ns := [("a", 0)], uname := [(1, "b"), (0, "a")] }) ∧
    (({ seq := 2, us := [0], ns := [("a", 0)], uname := [(1, "b"), (0, "a")] } : ChatState).Rename 0 "b" =
      (("a", true), { seq := 2, us := [0], ns := [("b", 0)], uname := [(0, "b"), (1, "b")] })) ∧
    (({ seq := 2, us := [0], ns := [("b", 0)], uname := [(0, "b"), (1, "b")] } : ChatState).remove 1 =
      .panicked) := by
  decide

/-- Claim C3 (amended): at every state reachable by registrations (with
the fresh names `randName` produces), renames of current members, and
removals of current members, the membership slice and the name map
describe the same membership, and display names of active participants
are pairwise distinct.  (As stated — allowing `Rename` on an
already-removed participant — the claim fails: see the
counterexample.) -/
theorem claimC3_registry_consistency (s : ChatState) (h : Reach s) :
    Inv s ∧ ∀ p ∈ s.us, ∀ q ∈ s.us, userName s p = userName s q → p = q := by
  have hInv := reach_inv h
  refine ⟨hInv, ?_⟩
  intro p hp q hq heq
  obtain ⟨_, h2, _, _⟩ := hInv
  have hp1 := h2 p hp
  have hq1 := h2 q hq
  rw [heq] at hp1
  rw [hp1] at hq1
  exact Option.some_injective _ hq1

/-- Witness for C3: the two-member registry reached by two
registrations satisfies the invariant and has distinct names. -/
theorem claimC3_witness :
    Inv ((initChat.Register "a").2.Register "b").2 ∧
    ∀ p ∈ ((initChat.Register "a").2.Register "b").2.us,
      ∀ q ∈ ((initChat.Register "a").2.Register "b").2.us,
        userName ((initChat.Register "a").2.Register "b").2 p =
          userName ((initChat.Register "a").2.Register "b").2 q → p = q :=
  claimC3_registry_consistency _
    (Reach.register _ "b" (Reach.register _ "a" Reach.init (by decide))
      (by decide))

/-- Counterexample for C3 as stated: register users `0` (name `a`) and
`1` (name `b`), remove `1`, then `Rename(1, "c")` — a rename of a
participant that is no longer a member.  It succeeds and re-inserts
`1` into the name map: afterwards `"c"` maps to `1` although `1` is
not in the membership slice, so the two structures no longer describe
the same membership. -/
theorem claimC3_counterexample :
    (((initChat.Register "a").2.Register "b").2.remove 1 =
      .removed { seq := 2, us := [0], ns := [("a", 0)], uname := [(1, "b"), (0, "a")] }) ∧
    (({ seq := 2, us := [0], ns := [("a", 0)], uname := [(1, "b"), (0, "a")] } : ChatState).Rename 1 "c" =
      (("b", true), { seq := 2, us := [0], ns := [("c", 1), ("a", 0)], uname := [(1, "c"), (0, "a")] })) ∧
    (alookup "c" ([("c", 1), ("a", 0)] : List (String × Nat)) = some 1) ∧
    (1 ∉ ([0] : List Nat)) := by
  decide

/-- Claim C4: for a current member `p` of an invariant-satisfying
state, `Rename(p, n)` succeeds iff no active participant currently
holds `n` (the current name of `p` itself counts as held, so renaming
to the own current name fails); on failure nothing is mutated and the
returned previous name is the zero value; on success the returned
previous name is the old name of `p`, the user object now carries `n`,
`n` maps to `p`, and the old name is free. -/
theorem claimC4_rename_iff (s : ChatState) (p : Nat) (n : String)
    (hInv : Inv s) (hp : p ∈ s.us) :
    ((s.Rename p n).1.2 = true ↔ ∀ q ∈ s.us, userName s q ≠ n) ∧
    ((s.Rename p n).1.2 = false → s.Rename p n = (("", false), s)) ∧
    ((s.Rename p n).1.2 = true →
      (s.Rename p n).1.1 = userName s p ∧
      userName (s.Rename p n).2 p = n ∧
      alookup n (s.Rename p n).2.ns = some p ∧
      alookup (userName s p) (s.Rename p n).2.ns = none) := by
  obtain ⟨h1, h2, _, _⟩ := hInv
  cases h : alookup n s.ns with
  | some v =>
    rw [rename_fail h]
    refine ⟨?_, fun _ => rfl, fun hc => by cases hc⟩
    constructor
    · intro hc; cases hc
    · intro hall
      obtain ⟨hv, hvn⟩ := h1 (n, v) (alookup_eq_some_mem h)
      exact absurd hvn (hall v hv)
  | none =>
    rw [rename_success h]
    have hpn : userName s p ≠ n := by
      intro hc
      have := h2 p hp
      rw [hc, h] at this
      cases this
    refine ⟨?_, ?_, ?_⟩
    · constructor
      · intro _ q hq hc
        have := h2 q hq
        rw [hc, h] at this
        cases this
      · intro _; rfl
    · intro hc
      simp at hc
    · intro _
      refine ⟨rfl, ?_, ?_, ?_⟩
      · simp [userName, alookup_ainsert_self]
      · exact alookup_ainsert_self _ _ _
      · show alookup (userName s p)
          (ainsert n p (aerase (userName s p) s.ns)) = none
        rw [alookup_ainsert_ne _ _ hpn, alookup_aerase_self]

/-- Witness for C4: in the one-member registry, renaming member `0` to
the free name `b` succeeds, and succeeds exactly because nobody holds
`b`. -/
theorem claimC4_witness :
    ((initChat.Register "a").2.Rename 0 "b").1.2 = true ↔
      ∀ q ∈ (initChat.Register "a").2.us,
        userName (initChat.Register "a").2 q ≠ "b" :=
  (claimC4_rename_iff _ 0 "b" (by decide) (by decide)).1

/-! Section: The per-connection receive step: `User.Receive`

A decoded JSON value in a params object.  Only string-ness matters to
the handler (the `rename` type assertion); every other JSON value is
embedded as `vint` (timestamps) or `vother`. -/

inductive Val where
  | vstr (s : String)
  | vint (n : Int)
  | vother (tag : Nat)
  deriving DecidableEq

/-- An `Object`: an open key/value mapping (a decoded, present Go map). -/
def Obj : Type := List (String × Val)

instance : DecidableEq Obj := by
  unfold Obj; infer_instance

/-- A decoded `Request{ID, Method, Params}`. -/
structure Request where
  rid : Int
  method : String
  params : Obj
  deriving DecidableEq

/-- A direct reply written back on the connection: `Response{ID,
Result}` or `Error{ID, Error}`.  A `Response` whose `Result` is the Go
nil `Object` is embedded as `result rid none`; `encoding/json`
serializes that nil map as JSON `null`, while an empty-but-non-nil map
(`result rid (some [])`) would serialize as an empty JSON object. -/
inductive Reply where
  | result (rid : Int) (res : Option Obj)
  | err (rid : Int) (e : Obj)
  deriving DecidableEq

/-- What one `Receive` call did (besides mutating the registry):
whether it returned a read/decode error (fatal), whether it closed the
connection, the direct reply written (if any), and the broadcast it
enqueued (method and params, if any).  Writes themselves are external
transport effects and are assumed to succeed. -/
structure StepResult where
  fatal : Bool
  closed : Bool
  reply : Option Reply
  broadcast : Option (String × Obj)
  deriving DecidableEq

/-- What `u.readRequest()` produced: a read/decode error, a handled
control frame (`req == nil`), or a decoded request. -/
inductive ReadOutcome where
  | readFailure
  | control
  | request (r : Request)
  deriving DecidableEq

/-- The `name, ok := req.Params["name"].(string)` type assertion:
`some` iff the key is present and holds a string. -/
def lookupStr (k : String) (m : Obj) : Option String :=
  match alookup k m with
  | some (Val.vstr s) => some s
  | _ => none

/-- The receive step `User.Receive` for user `u` at registry state `s`, given what
`readRequest` produced and the current timestamp `t`.  Mirrors the
`switch req.Method` dispatch: `rename` validates the param, calls
`Chat.Rename`, and on success broadcasts the rename notice and writes
an empty (nil-result) success reply; `publish` injects `author` and
`time` into the params and broadcasts them with no direct reply; any
other method gets the `not implemented` error reply. -/
def Receive (s : ChatState) (u : Nat) (inp : ReadOutcome) (t : Int) :
    StepResult × ChatState :=
  match inp with
  | .readFailure => (⟨true, true, none, none⟩, s)
  | .control => (⟨false, false, none, none⟩, s)
  | .request r =>
    if r.method = "rename" then
      match lookupStr "name" r.params with
      | none =>
        (⟨false, false, some (.err r.rid [("error", .vstr "bad params")]), none⟩, s)
      | some name =>
        let res := s.Rename u name
        if res.1.2 then
          (⟨false, false, some (.result r.rid none),
            some ("rename",
              [("prev", .vstr res.1.1), ("name", .vstr name), ("time", .vint t)])⟩,
            res.2)
        else
          (⟨false, false, some (.err r.rid [("error", .vstr "already exists")]), none⟩,
            res.2)
    else if r.method = "publish" then
      (⟨false, false, none,
        some ("publish",
          ainsert "time" (.vint t) (ainsert "author" (.vstr (userName s u)) r.params))⟩,
        s)
    else
      (⟨false, false, some (.err r.rid [("error", .vstr "not implemented")]), none⟩, s)

/-! Section: The broadcast writer and the worker pool

`Chat.writer` drains the outbound queue in enqueue order; for the
`k`-th dequeued message it snapshots `c.us` and calls
`pool.Schedule(func() { u.writeRaw(bts) })` once per snapshotted user,
in slice order.  A task is identified by the target user and the index
of the message it writes. -/

structure BTask where
  user : Nat
  msg : Nat
  deriving DecidableEq

/-- The scheduling (submission) order of write tasks produced by the
writer loop, starting at message index `k`, given the membership
snapshot taken for each queued message. -/
def writerTasksFrom (k : Nat) : List (List Nat) → List BTask
  | [] => []
  | snap :: rest =>
    snap.map (fun u => ⟨u, k⟩) ++ writerTasksFrom (k + 1) rest

/-- All write tasks submitted to the pool for a queue drained from
message index `0`. -/
def writerTasks (snaps : List (List Nat)) : List BTask :=
  writerTasksFrom 0 snaps

/-- The sequence of message indices participant `u` observes on its
connection when the pool executes the tasks in the order `ex`. -/
def observedMsgs (u : Nat) (ex : List BTask) : List Nat :=
  (ex.filter (fun b => b.user = u)).map (fun b => b.msg)

theorem msg_le_of_mem_writerTasksFrom {k : Nat} {snaps : List (List Nat)}
    {b : BTask} (h : b ∈ writerTasksFrom k snaps) : k ≤ b.msg := by
  induction snaps generalizing k with
  | nil => cases h
  | cons snap rest ih =>
    rcases List.mem_append.1 h with h | h
    · obtain ⟨u, _, hu⟩ := List.mem_map.1 h
      rw [← hu]
    · exact Nat.le_of_succ_le (ih h)

theorem writerTasksFrom_msg_pairwise (k : Nat) (snaps : List (List Nat)) :
    List.Pairwise (fun a b : BTask => a.msg ≤ b.msg)
      (writerTasksFrom k snaps) := by
  induction snaps generalizing k with
  | nil => exact List.Pairwise.nil
  | cons snap rest ih =>
    rw [writerTasksFrom, List.pairwise_append]
    refine ⟨?_, ih (k + 1), ?_⟩
    · rw [List.pairwise_map]
      exact List.pairwise_of_forall (fun _ _ => Nat.le_refl k)
    · intro a ha b hb
      obtain ⟨u, _, hu⟩ := List.mem_map.1 ha
      rw [← hu]
      exact Nat.le_of_succ_le (msg_le_of_mem_writerTasksFrom hb)

/-! Section: Claims C5 to C8 -/

/-- Claim C5: a decoded `publish` request with a (present) params
mapping injects `author` (the current display name of the sender) and
`time` (the timestamp) into the params, broadcasts method `publish`
with the augmented params, leaves every other key unchanged, sends no
direct reply, does not close the connection, reports a successful
step, and mutates no registry state; the writer fans the broadcast out
to exactly the snapshotted membership (which includes the sender when
the sender is a member). -/
theorem claimC5_publish (s : ChatState) (u : Nat) (rid : Int) (params : Obj)
    (t : Int) :
    Receive s u (.request ⟨rid, "publish", params⟩) t =
      (⟨false, false, none,
        some ("publish",
          ainsert "time" (.vint t) (ainsert "author" (.vstr (userName s u)) params))⟩,
        s) ∧
    alookup "author"
        (ainsert "time" (Val.vint t) (ainsert "author" (.vstr (userName s u)) params)) =
      some (.vstr (userName s u)) ∧
    alookup "time"
        (ainsert "time" (Val.vint t) (ainsert "author" (.vstr (userName s u)) params)) =
      some (.vint t) ∧
    (∀ k : String, k = "author" ∨ k = "time" ∨
      alookup k
          (ainsert "time" (Val.vint t) (ainsert "author" (.vstr (userName s u)) params)) =
        alookup k params) ∧
    (writerTasksFrom 0 [s.us]).map (fun b => b.user) = s.us := by
  refine ⟨rfl, ?_, ?_, ?_, ?_⟩
  · rw [alookup_ainsert_ne _ _ (by decide), alookup_ainsert_self]
  · exact alookup_ainsert_self _ _ _
  · intro k
    by_cases hka : k = "author"
    · exact Or.inl hka
    · by_cases hkt : k = "time"
      · exact Or.inr (Or.inl hkt)
      · exact Or.inr (Or.inr (by
          rw [alookup_ainsert_ne _ _ hkt, alookup_ainsert_ne _ _ hka]))
  · simp only [writerTasksFrom, List.append_nil, List.map_map]
    exact List.map_id s.us

/-- Claim C6 (amended): per-participant delivery order equals enqueue
order provided the worker pool executes the scheduled write tasks in
submission order.  (Under only the stated pool contract — at-least-once
execution, no cross-task ordering — the claim fails: see the
counterexample.) -/
theorem claimC6_per_participant_order (snaps : List (List Nat)) (u : Nat) :
    List.Pairwise (· ≤ ·) (observedMsgs u (writerTasks snaps)) := by
  unfold observedMsgs writerTasks
  rw [List.pairwise_map]
  exact List.Pairwise.filter _ (writerTasksFrom_msg_pairwise 0 snaps)

/-- Counterexample for C6 as stated: with one participant connected for
two consecutive broadcasts, executing the two scheduled write tasks in
the opposite order is a legal behaviour of a pool that promises no
cross-task ordering — each submitted task runs exactly once — yet the
participant then observes message 1 before message 0. -/
theorem claimC6_counterexample :
    List.Perm (writerTasks [[0], [0]]) [⟨0, 1⟩, ⟨0, 0⟩] ∧
    ¬ List.Pairwise (· ≤ ·) (observedMsgs 0 [⟨0, 1⟩, ⟨0, 0⟩]) := by
  decide

/-- The `rename` request handling as the spec describes it (with the
success-reply result amended from the empty mapping to the Go nil
mapping): missing or non-string `name` gets the `bad params` error
reply with nothing mutated; a name already present in the registry
gets the `already exists` error reply with nothing mutated and no
notice; otherwise `Registry.Rename` runs, the `rename` notice
`(prev, name, time)` is broadcast, and a success reply with nil result
is written — all correlated to the request id, never fatal, never
closing the connection. -/
def renameSpec (s : ChatState) (u : Nat) (rid : Int) (params : Obj)
    (t : Int) : StepResult × ChatState :=
  match lookupStr "name" params with
  | none =>
    (⟨false, false, some (.err rid [("error", .vstr "bad params")]), none⟩, s)
  | some name =>
    match alookup name s.ns with
    | some _ =>
      (⟨false, false, some (.err rid [("error", .vstr "already exists")]), none⟩, s)
    | none =>
      (⟨false, false, some (.result rid none),
        some ("rename",
          [("prev", .vstr (userName s u)), ("name", .vstr name), ("time", .vint t)])⟩,
        (s.Rename u name).2)

/-- Claim C7 (amended): on every decoded `rename` request the receive
step behaves exactly as `renameSpec` describes, where the success
reply carries the Go nil result (serialized as JSON `null`) rather
than an empty mapping.  (The claim as stated — result `= {}` — fails:
see the counterexample.) -/
theorem claimC7_rename_step (s : ChatState) (u : Nat) (rid : Int)
    (params : Obj) (t : Int) :
    Receive s u (.request ⟨rid, "rename", params⟩) t =
      renameSpec s u rid params t := by
  simp only [Receive, renameSpec, if_pos rfl]
  cases hn : lookupStr "name" params with
  | none => rfl
  | some name =>
    cases h : alookup name s.ns with
    | some v =>
      simp [rename_fail h, h]
    | none =>
      simp [rename_success h, h]

/-- Counterexample for C7 as stated: a successful rename writes a
reply whose result is the Go nil `Object` (`result rid none`, JSON
`null`), not the empty mapping (`result rid (some [])`, JSON `{}`). -/
theorem claimC7_counterexample :
    (Receive (initChat.Register "a").2 0
        (.request ⟨1, "rename", [("name", Val.vstr "b")]⟩) 9).1.reply =
      some (.result 1 none) ∧
    (Receive (initChat.Register "a").2 0
        (.request ⟨1, "rename", [("name", Val.vstr "b")]⟩) 9).1.reply ≠
      some (.result 1 (some [])) := by
  decide

/-- Claim C8: a read or decode failure closes the connection, is
reported as a fatal step, and writes no reply; a successfully decoded
request with a method other than `rename` and `publish` gets the
`not implemented` error reply correlated to its id, with the step
successful, the connection open, and the registry untouched. -/
theorem claimC8_error_paths :
    (∀ (s : ChatState) (u : Nat) (t : Int),
      Receive s u .readFailure t = (⟨true, true, none, none⟩, s)) ∧
    (∀ (s : ChatState) (u : Nat) (r : Request) (t : Int),
      r.method = "rename" ∨ r.method = "publish" ∨
        Receive s u (.request r) t =
          (⟨false, false,
            some (.err r.rid [("error", .vstr "not implemented")]), none⟩, s)) := by
  refine ⟨fun s u t => rfl, fun s u r t => ?_⟩
  by_cases h1 : r.method = "rename"
  · exact Or.inl h1
  · by_cases h2 : r.method = "publish"
    · exact Or.inr (Or.inl h2)
    · refine Or.inr (Or.inr ?_)
      show (if r.method = "rename" then _ else _) = _
      rw [if_neg h1, if_neg h2]

/-! Section: Default-name generation: `Chat.randName`

The word list `animals` lives outside the package core, so it is a
parameter here (`words`); the claim quantifies over non-empty word
lists anyway.  The two `rand` draws per loop round are modelled by an
arbitrary stream of naturals, consumed two per round.  The unbounded
`for` loop is embedded with explicit fuel; the termination theorem
shows that `maxKeyLen ns + 2` rounds always suffice and that the
result is stable under any larger fuel, so the fueled function is the
loop. -/

/-- A digit `strconv.Itoa(rand.Intn(10))`. -/
def digitStr (d : Nat) : String := Nat.repr (d % 10)

/-- The draw `animals[rand.Intn(len(animals))]` for a non-empty `words`. -/
def pickWord (words : List String) (r : Nat) : String :=
  words.getD (r % words.length) ""

/-- One round of the `randName` loop: build `words[...] + suffix`,
return it if it is not a key of `c.ns`, otherwise retry with one more
random digit appended to the suffix. -/
def randNameAux (ns : List (String × Nat)) (words : List String)
    (stream : Nat → Nat) : Nat → Nat → String → Option String
  | _, 0, _ => none
  | r, fuel + 1, suffix =>
    let name := pickWord words (stream (2 * r)) ++ suffix
    match alookup name ns with
    | none => some name
    | some _ =>
      randNameAux ns words stream (r + 1) fuel
        (suffix ++ digitStr (stream (2 * r + 1)))

/-- The longest key in the name map. -/
def maxKeyLen (ns : List (String × Nat)) : Nat :=
  ns.foldr (fun e m => max e.1.length m) 0

/-- The loop `Chat.randName`, with the fuel the termination theorem proves
sufficient. -/
def randName (ns : List (String × Nat)) (words : List String)
    (stream : Nat → Nat) : Option String :=
  randNameAux ns words stream 0 (maxKeyLen ns + 2) ""

theorem key_len_le_maxKeyLen {k : String} {v : Nat}
    {ns : List (String × Nat)} (h : (k, v) ∈ ns) :
    k.length ≤ maxKeyLen ns := by
  induction ns with
  | nil => cases h
  | cons e rest ih =>
    rcases List.mem_cons.1 h with he | he
    · rw [← he]
      exact Nat.le_max_left _ _
    · exact Nat.le_trans (ih he) (Nat.le_max_right _ _)

theorem digitStr_length (d : Nat) : (digitStr d).length = 1 := by
  have h : ∀ x, x < 10 → (Nat.repr x).length = 1 := by decide
  exact h (d % 10) (Nat.mod_lt d (by decide))

theorem randNameAux_success (ns : List (String × Nat))
    (words : List String) (stream : Nat → Nat) :
    ∀ (fuel r : Nat) (suffix : String),
      maxKeyLen ns < suffix.length + fuel →
      ∃ name, randNameAux ns words stream r (fuel + 1) suffix = some name ∧
        alookup name ns = none := by
  intro fuel
  induction fuel with
  | zero =>
    intro r suffix hlen
    cases hl : alookup (pickWord words (stream (2 * r)) ++ suffix) ns with
    | none =>
      refine ⟨pickWord words (stream (2 * r)) ++ suffix, ?_, hl⟩
      simp only [randNameAux]
      rw [hl]
    | some v =>
      have hmem := alookup_eq_some_mem hl
      have hle := key_len_le_maxKeyLen hmem
      rw [String.length_append] at hle
      omega
  | succ fuel ih =>
    intro r suffix hlen
    cases hl : alookup (pickWord words (stream (2 * r)) ++ suffix) ns with
    | none =>
      refine ⟨pickWord words (stream (2 * r)) ++ suffix, ?_, hl⟩
      simp only [randNameAux]
      rw [hl]
    | some v =>
      have hlen2 : maxKeyLen ns <
          (suffix ++ digitStr (stream (2 * r + 1))).length + fuel := by
        rw [String.length_append, digitStr_length]
        omega
      obtain ⟨name, hrec, hfresh⟩ := ih (r + 1)
        (suffix ++ digitStr (stream (2 * r + 1))) hlen2
      refine ⟨name, ?_, hfresh⟩
      simp only [randNameAux]
      rw [hl]
      exact hrec

theorem randNameAux_fuel_mono (ns : List (String × Nat))
    (words : List String) (stream : Nat → Nat) :
    ∀ (fuel r : Nat) (suffix : String) (name : String),
      randNameAux ns words stream r fuel suffix = some name →
      randNameAux ns words stream r (fuel + 1) suffix = some name := by
  intro fuel
  induction fuel with
  | zero =>
    intro r suffix name h
    cases h
  | succ fuel ih =>
    intro r suffix name h
    simp only [randNameAux] at h ⊢
    cases hl : alookup (pickWord words (stream (2 * r)) ++ suffix) ns with
    | none =>
      rw [hl] at h
      exact h
    | some v =>
      rw [hl] at h
      exact ih _ _ _ h

theorem randNameAux_fuel_ge (ns : List (String × Nat))
    (words : List String) (stream : Nat → Nat) (f₁ f₂ r : Nat)
    (suffix name : String) (hle : f₁ ≤ f₂)
    (h : randNameAux ns words stream r f₁ suffix = some name) :
    randNameAux ns words stream r f₂ suffix = some name := by
  induction f₂, hle using Nat.le_induction with
  | base => exact h
  | succ f₂ _ ih => exact randNameAux_fuel_mono ns words stream f₂ r suffix name ih

/-- Claim C9: for every name map, every non-empty word list, and every
stream of random draws, the `randName` retry loop terminates — fuel
`maxKeyLen ns + 2` always suffices, and any larger fuel returns the
same name, because the candidate suffix grows by one digit per
collision round and eventually outgrows every key in the map — and the
returned name is not a key of the name map. -/
theorem claimC9_randName_terminates (ns : List (String × Nat))
    (words : List String) (stream : Nat → Nat) (_hw : words ≠ []) :
    ∃ name, randName ns words stream = some name ∧
      alookup name ns = none ∧
      ∀ fuel, maxKeyLen ns + 2 ≤ fuel →
        randNameAux ns words stream 0 fuel "" = some name := by
  obtain ⟨name, hsucc, hfresh⟩ :=
    randNameAux_success ns words stream (maxKeyLen ns + 1) 0 ""
      (by simp)
  refine ⟨name, hsucc, hfresh, ?_⟩
  intro fuel hfuel
  exact randNameAux_fuel_ge ns words stream (maxKeyLen ns + 2) fuel 0 "" name
    hfuel hsucc

/-- Witness for C9: with one name `cat` taken and the word list
`[cat]`, the loop terminates on a fresh name. -/
theorem claimC9_witness :
    (["cat"] : List String) ≠ [] ∧
    ∃ name, randName [("cat", 0)] ["cat"] (fun _ => 0) = some name ∧
      alookup name [("cat", 0)] = none ∧
      ∀ fuel, maxKeyLen [("cat", 0)] + 2 ≤ fuel →
        randNameAux [("cat", 0)] ["cat"] (fun _ => 0) 0 fuel "" = some name :=
  ⟨by decide,
    claimC9_randName_terminates [("cat", 0)] ["cat"] (fun _ => 0) (by decide)⟩

/-! Section: The per-connection io lock: `readRequest` versus `write`/`writeRaw`

Events on one connection of one `User`: acquiring `u.io` (tagged with
the code path that takes it — `readRequest` only reads frames inside
its critical section, `write`/`writeRaw` only write bytes inside
theirs), releasing it, reading bytes, and writing bytes.  A trace is
valid when it respects mutex semantics (one holder at a time) and the
lock discipline of the code: every `conn` read happens inside a
`readRequest` section and every `conn` write inside a `write`/
`writeRaw` section, by the `u.io.Lock()` / `defer u.io.Unlock()` pairs
in those three functions. -/

inductive LockKind where
  | reading
  | writing
  deriving DecidableEq

inductive IoEv where
  | acq (tid : Nat) (k : LockKind)
  | rel (tid : Nat)
  | rd (tid : Nat)
  | wr (tid : Nat)
  deriving DecidableEq

/-- One step of mutex semantics plus the lock discipline of the code:
the state is `none` (free) or `some (tid, kind)` (held by `tid` for a
reading or writing section).  Invalid events yield `none` (no valid
continuation). -/
def ioStep : Option (Nat × LockKind) → IoEv → Option (Option (Nat × LockKind))
  | none, .acq t k => some (some (t, k))
  | some (t, _), .rel t' => if t = t' then some none else none
  | some (t, .reading), .rd t' =>
    if t = t' then some (some (t, .reading)) else none
  | some (t, .writing), .wr t' =>
    if t = t' then some (some (t, .writing)) else none
  | _, _ => none

/-- Run a trace of io events from a lock state; `some st` when the
trace is valid and ends in state `st`. -/
def runEvs (st : Option (Nat × LockKind)) : List IoEv → Option (Option (Nat × LockKind))
  | [] => some st
  | e :: evs =>
    match ioStep st e with
    | none => none
    | some st' => runEvs st' evs

theorem runEvs_append (st : Option (Nat × LockKind)) (l₁ l₂ : List IoEv) :
    runEvs st (l₁ ++ l₂) =
      match runEvs st l₁ with
      | none => none
      | some st' => runEvs st' l₂ := by
  induction l₁ generalizing st with
  | nil => rfl
  | cons e l₁ ih =>
    show runEvs st (e :: (l₁ ++ l₂)) = _
    simp only [runEvs]
    cases ioStep st e with
    | none => rfl
    | some st' => exact ih st'

theorem ioStep_wr {st : Option (Nat × LockKind)} {t : Nat}
    {st' : Option (Nat × LockKind)} (h : ioStep st (.wr t) = some st') :
    st = some (t, .writing) := by
  match st with
  | none => cases h
  | some (t', .reading) => cases h
  | some (t', .writing) =>
    by_cases he : t' = t
    · rw [he]
    · simp only [ioStep, if_neg he] at h
      cases h

/-- Claim C10: in every valid trace of io-lock events on one
connection, at the moment a byte is written the lock is held by the
writer in a writing section — hence never by a `readRequest` section:
no bytes are written to the connection while a frame read is in
progress, and symmetrically any write is deferred until the reading
section has released the lock. -/
theorem claimC10_no_write_during_read (l₁ : List IoEv) (t : Nat)
    (l₂ : List IoEv) (res : Option (Nat × LockKind))
    (h : runEvs none (l₁ ++ IoEv.wr t :: l₂) = some res) (u : Nat) :
    runEvs none l₁ ≠ some (some (u, LockKind.reading)) := by
  intro hc
  rw [runEvs_append, hc] at h
  simp only [runEvs] at h
  cases hs : ioStep (some (u, LockKind.reading)) (IoEv.wr t) with
  | none => rw [hs] at h; cases h
  | some st' =>
    have := ioStep_wr hs
    cases this

/-- Witness for C10: in the valid trace where thread 0 takes the lock
for a writing section, writes, and releases, the prefix before the
write is not in a reading section. -/
theorem claimC10_witness :
    runEvs none [IoEv.acq 0 .writing, IoEv.wr 0, IoEv.rel 0] = some none ∧
    runEvs none [IoEv.acq 0 .writing] ≠ some (some (5, LockKind.reading)) :=
  ⟨by decide,
    claimC10_no_write_during_read [IoEv.acq 0 .writing] 0 [IoEv.rel 0] none
      (by decide) 5⟩

end WsRoom
